import Mathlib

/-!
Verification of the fair-random dice game core (`src/game.py`).

The Python source is shallowly embedded: Python `int` becomes `Int`
(Python's `%` on a positive modulus agrees with Lean's `Int.emod`),
`bytes` become `List Nat` (each element a byte value), strings become
`String`, and a call that can raise becomes an `Option`/`Except` result.
Randomness is injected: a constructor that draws random values in Python
takes those draws as explicit arguments here.
-/

/-- Embedding of `class Dice` (game.py lines 8-12): an ordered sequence of
integer faces. The length-6 check of `__init__` lives in `mkDice`. -/
structure Dice where
  faces : List Int
deriving DecidableEq, Repr

instance : Inhabited Dice := ⟨⟨[]⟩⟩

/-- Embedding of `Dice.__init__` (game.py lines 9-12): raises `ValueError`
(modelled as `Except.error` with the source's message) when the face list
does not have exactly 6 entries, otherwise stores the faces unchanged. -/
def mkDice (faces : List Int) : Except String Dice :=
  if faces.length ≠ 6 then .error "Each dice must have exactly 6 faces."
  else .ok ⟨faces⟩

/-- Embedding of `class FairPlay` (game.py lines 35-44). The constructor's
random draws (`secret_key` via `generate_secure_random()`, `computer_number`
via `generate_random_int(range_max)`) and the derived `hmac` digest are
explicit fields. -/
structure FairPlay where
  range_max : Int
  secret_key : List Nat
  computer_number : Int
  hmac : String
deriving DecidableEq, Repr

namespace FairPlay

/-- Embedding of `FairPlay.verify_and_get_result` (game.py lines 42-44):
`result = (self.computer_number + user_number) % self.range_max` followed by
`return result, self.secret_key`. The only way this Python body can raise is
`ZeroDivisionError` when `range_max == 0` (Python `%` accepts negative
moduli), modelled as `none`. -/
def verify_and_get_result (fp : FairPlay) (user_number : Int) :
    Option (Int × List Nat) :=
  if fp.range_max = 0 then none
  else some ((fp.computer_number + user_number) % fp.range_max, fp.secret_key)

end FairPlay

/-- C1: for every FairPlay round with a usable modulus and every integer
contribution, `verify_and_get_result` returns the pair
`((committedValue + contribution) mod rangeMax, secretKey)`; in particular
with `rangeMax = 6`, `committedValue = 4`, `contribution = 3` the result
component is `(4 + 3) mod 6 = 1`. -/
theorem verify_and_get_result_combines (fp : FairPlay) (u : Int)
    (h : fp.range_max ≠ 0) :
    fp.verify_and_get_result u =
      some ((fp.computer_number + u) % fp.range_max, fp.secret_key)
    ∧ FairPlay.verify_and_get_result ⟨6, [0], 4, ""⟩ 3 = some (1, [0]) := by
  refine ⟨?_, by decide⟩
  simp [FairPlay.verify_and_get_result, h]

/-- Witness for C1 at the spec's concrete round: `rangeMax = 6`,
`committedValue = 4`, `contribution = 3` gives result 1. -/
theorem verify_and_get_result_combines_witness :
    (6 : Int) ≠ 0 ∧
      FairPlay.verify_and_get_result ⟨6, [0], 4, ""⟩ 3 =
        some ((4 + 3) % 6, [0]) :=
  ⟨by decide, (verify_and_get_result_combines ⟨6, [0], 4, ""⟩ 3 (by decide)).1⟩

/-- C10: with a positive `range_max`, `verify_and_get_result` never raises
for any integer `user_number` (including negative values and values at or
above `range_max`), and the integer component of its result always lies in
`[0, range_max)`. -/
theorem verify_and_get_result_total_inrange (fp : FairPlay) (u : Int)
    (h : 0 < fp.range_max) :
    ∃ r, fp.verify_and_get_result u = some (r, fp.secret_key)
      ∧ 0 ≤ r ∧ r < fp.range_max := by
  refine ⟨(fp.computer_number + u) % fp.range_max, ?_, ?_, ?_⟩
  · simp [FairPlay.verify_and_get_result, h.ne']
  · exact Int.emod_nonneg _ h.ne'
  · exact Int.emod_lt_of_pos _ h

/-- Witness for C10 at a negative out-of-range contribution: the round with
`range_max = 6` and `committedValue = 4` handles `user_number = -11` without
failure and lands in `[0, 6)`. -/
theorem verify_and_get_result_total_inrange_witness :
    (0 : Int) < 6 ∧
      ∃ r, FairPlay.verify_and_get_result ⟨6, [3], 4, "d"⟩ (-11) =
          some (r, [3]) ∧ 0 ≤ r ∧ r < 6 :=
  ⟨by decide, verify_and_get_result_total_inrange ⟨6, [3], 4, "d"⟩ (-11) (by decide)⟩

/-- C8: constructing a `Dice` from a sequence whose length is not 6 (for
example `[1,2,3,4,5]`) fails with the source's `ValueError`
("Each dice must have exactly 6 faces."), and constructing one from exactly
6 integers succeeds with the 6 faces stored unchanged. -/
theorem mkDice_validates (faces : List Int) :
    (faces.length ≠ 6 →
      mkDice faces = .error "Each dice must have exactly 6 faces.")
    ∧ (faces.length = 6 → mkDice faces = .ok ⟨faces⟩)
    ∧ mkDice [1, 2, 3, 4, 5] = .error "Each dice must have exactly 6 faces." := by
  refine ⟨fun h => ?_, fun h => ?_, rfl⟩
  · simp [mkDice, h]
  · simp [mkDice, h]

/-- Witness for C8: the 5-face list is rejected and a 6-face list is stored
unchanged. -/
theorem mkDice_validates_witness :
    mkDice [1, 2, 3, 4, 5] = .error "Each dice must have exactly 6 faces."
    ∧ mkDice [2, 2, 4, 4, 9, 9] = .ok ⟨[2, 2, 4, 4, 9, 9]⟩ :=
  ⟨(mkDice_validates [1, 2, 3, 4, 5]).1 (by decide),
   (mkDice_validates [2, 2, 4, 4, 9, 9]).2.1 (by decide)⟩

/-- C2: for every modulus `R > 0` and fixed contribution `c ∈ [0, R)`, the
combine map `committedValue ↦ (committedValue + c) mod R` implemented by
`FairPlay.verify_and_get_result` is a bijection on `[0, R)`, and each result
value in `[0, R)` is hit by exactly one committed value — so a uniformly
distributed committed value yields a uniformly distributed result whatever
the contribution. -/
theorem combine_bijection_uniform (R c : Int) (key : List Nat) (d : String)
    (hR : 0 < R) (hc0 : 0 ≤ c) (hcR : c < R) :
    Set.BijOn
      (fun v => (FairPlay.verify_and_get_result ⟨R, key, v, d⟩ c).elim 0 Prod.fst)
      (Set.Ico 0 R) (Set.Ico 0 R)
    ∧ ∀ r, 0 ≤ r → r < R →
        ((Finset.Ico (0 : Int) R).filter
          (fun v => FairPlay.verify_and_get_result ⟨R, key, v, d⟩ c
            = some (r, key))).card = 1 := by
  have hfun : (fun v =>
        (FairPlay.verify_and_get_result ⟨R, key, v, d⟩ c).elim 0 Prod.fst)
      = fun v => (v + c) % R := by
    funext v
    simp [FairPlay.verify_and_get_result, hR.ne']
  have hinj : ∀ v1 v2 : Int, 0 ≤ v1 → v1 < R → 0 ≤ v2 → v2 < R →
      (v1 + c) % R = (v2 + c) % R → v1 = v2 := by
    intro v1 v2 h10 h1R h20 h2R h
    have hmod : Int.ModEq R (v1 + c) (v2 + c) := h
    have hdvd : R ∣ v2 - v1 := by
      have h1 := hmod.dvd
      have heq : v2 + c - (v1 + c) = v2 - v1 := by ring
      rwa [heq] at h1
    have habs : |v2 - v1| < R := abs_lt.mpr ⟨by omega, by omega⟩
    have := Int.eq_zero_of_abs_lt_dvd hdvd habs
    omega
  have hval : ∀ r, 0 ≤ r → r < R → ((r - c) % R + c) % R = r := by
    intro r hr0 hrR
    have h1 : Int.ModEq R ((r - c) % R) (r - c) := Int.emod_emod_of_dvd _ dvd_rfl
    have h2 : Int.ModEq R ((r - c) % R + c) (r - c + c) := h1.add_right c
    have h3 : r - c + c = r := by ring
    calc ((r - c) % R + c) % R = (r - c + c) % R := h2
      _ = r % R := by rw [h3]
      _ = r := Int.emod_eq_of_lt hr0 hrR
  constructor
  · rw [hfun]
    refine ⟨fun v _ => ?_, fun v1 hv1 v2 hv2 h => ?_, fun r hr => ?_⟩
    · exact Set.mem_Ico.mpr ⟨Int.emod_nonneg _ hR.ne', Int.emod_lt_of_pos _ hR⟩
    · exact hinj v1 v2 (Set.mem_Ico.mp hv1).1 (Set.mem_Ico.mp hv1).2
        (Set.mem_Ico.mp hv2).1 (Set.mem_Ico.mp hv2).2 h
    · obtain ⟨hr0, hrR⟩ := Set.mem_Ico.mp hr
      exact ⟨(r - c) % R,
        Set.mem_Ico.mpr ⟨Int.emod_nonneg _ hR.ne', Int.emod_lt_of_pos _ hR⟩,
        hval r hr0 hrR⟩
  · intro r hr0 hrR
    have hsingle : (Finset.Ico (0 : Int) R).filter
        (fun v => FairPlay.verify_and_get_result ⟨R, key, v, d⟩ c = some (r, key))
        = {(r - c) % R} := by
      ext v
      simp only [Finset.mem_filter, Finset.mem_Ico, Finset.mem_singleton,
        FairPlay.verify_and_get_result, hR.ne', if_false, Option.some.injEq,
        Prod.mk.injEq, and_true, if_neg]
      constructor
      · rintro ⟨⟨hv0, hvR⟩, hvr⟩
        have h1 : Int.ModEq R (v + c) r := by
          show (v + c) % R = r % R
          rw [Int.emod_eq_of_lt hr0 hrR]
          exact hvr
        have h2 : Int.ModEq R v (r - c) := by
          have h3 := h1.sub_right c
          have h4 : v + c - c = v := by ring
          rwa [h4] at h3
        calc v = v % R := (Int.emod_eq_of_lt hv0 hvR).symm
          _ = (r - c) % R := h2
      · rintro rfl
        exact ⟨⟨Int.emod_nonneg _ hR.ne', Int.emod_lt_of_pos _ hR⟩,
          hval r hr0 hrR⟩
    rw [hsingle]
    exact Finset.card_singleton _

/-- Witness for C2 at `R = 6`, `c = 3`: the theorem's hypotheses hold there. -/
theorem combine_bijection_uniform_witness :
    ((0 : Int) < 6 ∧ (0 : Int) ≤ 3 ∧ (3 : Int) < 6) ∧
    (Set.BijOn
      (fun v => (FairPlay.verify_and_get_result ⟨6, [5], v, "w"⟩ 3).elim 0 Prod.fst)
      (Set.Ico 0 6) (Set.Ico 0 6)
    ∧ ∀ r, 0 ≤ r → r < 6 →
        ((Finset.Ico (0 : Int) 6).filter
          (fun v => FairPlay.verify_and_get_result ⟨6, [5], v, "w"⟩ 3
            = some (r, [5]))).card = 1) :=
  ⟨⟨by decide, by decide, by decide⟩,
   combine_bijection_uniform 6 3 [5] "w" (by decide) (by decide) (by decide)⟩

/-- Embedding of `int.from_bytes(..., 'big')` as used in game.py line 26:
big-endian decoding of a byte list into a natural number. -/
def int_from_bytes (bs : List Nat) : Nat :=
  bs.foldl (fun acc b => acc * 256 + b) 0

namespace RandomGenerator

/-- One iteration of the loop body of `RandomGenerator.generate_random_int`
(game.py lines 25-28), applied to the candidate `rand` that
`int.from_bytes(generate_secure_random(256), 'big')` produced: `some` of the
returned value when `rand < (2**256 // range_max) * range_max`, and `none`
when the candidate is rejected and the loop redraws. -/
def generate_random_int_step (range_max rand : Nat) : Option Nat :=
  if rand < 2 ^ 256 / range_max * range_max then some (rand % range_max)
  else none

/-- Embedding of `RandomGenerator.generate_random_int` (game.py lines 23-28):
the `while True` loop consumes successive candidate draws (made explicit as a
list) until one is accepted. -/
def generate_random_int (range_max : Nat) : List Nat → Option Nat
  | [] => none
  | rand :: rest =>
    match generate_random_int_step range_max rand with
    | some r => some r
    | none => generate_random_int range_max rest

end RandomGenerator

/-- Big-endian folding from any accumulator stays below
`(acc + 1) * 256 ^ length` when every byte is below 256. -/
theorem int_from_bytes_foldl_lt (bs : List Nat) (acc : Nat)
    (h : ∀ b ∈ bs, b < 256) :
    List.foldl (fun acc b => acc * 256 + b) acc bs < (acc + 1) * 256 ^ bs.length := by
  induction bs generalizing acc with
  | nil => simpa using Nat.lt_succ_self acc
  | cons b bs ih =>
    simp only [List.foldl_cons, List.length_cons]
    have hb : b < 256 := h b (List.mem_cons_self _ _)
    have hrec := ih (acc * 256 + b) (fun x hx => h x (List.mem_cons_of_mem _ hx))
    calc List.foldl (fun acc b => acc * 256 + b) (acc * 256 + b) bs
        < (acc * 256 + b + 1) * 256 ^ bs.length := hrec
      _ ≤ (acc + 1) * 256 ^ (bs.length + 1) := by
          have hstep : acc * 256 + b + 1 ≤ (acc + 1) * 256 := by omega
          calc (acc * 256 + b + 1) * 256 ^ bs.length
              ≤ (acc + 1) * 256 * 256 ^ bs.length := Nat.mul_le_mul_right _ hstep
            _ = (acc + 1) * 256 ^ (bs.length + 1) := by ring

/-- A single accepted candidate yields a value below the modulus. -/
theorem generate_random_int_step_lt (R rand r : Nat) (hR : 0 < R)
    (h : RandomGenerator.generate_random_int_step R rand = some r) : r < R := by
  unfold RandomGenerator.generate_random_int_step at h
  split at h
  · injection h with h'
    rw [← h']
    exact Nat.mod_lt _ hR
  · cases h

/-- C3: `generate_random_int` is rejection sampling over a 256-bit candidate:
whatever the sequence of candidate draws, any value it returns lies in
`[0, range_max)`; a 32-byte draw always decodes to a candidate in
`[0, 2^256)`; and each value of `[0, range_max)` is produced by exactly
`2^256 / range_max` of the `2^256` candidates (the acceptance region), so
accepted candidates hit every value equally often. -/
theorem generate_random_int_rejection_uniform (R : Nat) (hR : 0 < R) :
    (∀ draws r, RandomGenerator.generate_random_int R draws = some r → r < R)
    ∧ (∀ bs : List Nat, bs.length = 32 → (∀ b ∈ bs, b < 256) →
        int_from_bytes bs < 2 ^ 256)
    ∧ (∀ v, v < R →
        ((Finset.range (2 ^ 256)).filter
          (fun rand => RandomGenerator.generate_random_int_step R rand
            = some v)).card = 2 ^ 256 / R) := by
  refine ⟨?_, ?_, ?_⟩
  · intro draws
    induction draws with
    | nil =>
      intro r h
      simp [RandomGenerator.generate_random_int] at h
    | cons a rest ih =>
      intro r h
      rw [RandomGenerator.generate_random_int] at h
      cases hstep : RandomGenerator.generate_random_int_step R a with
      | some s =>
        rw [hstep] at h
        simp only [Option.some.injEq] at h
        rw [← h]
        exact generate_random_int_step_lt R a s hR hstep
      | none =>
        rw [hstep] at h
        exact ih r h
  · intro bs hlen hbytes
    have h1 : int_from_bytes bs < (0 + 1) * 256 ^ bs.length :=
      int_from_bytes_foldl_lt bs 0 hbytes
    have h2 : (0 + 1) * 256 ^ bs.length = 2 ^ 256 := by
      rw [hlen]
      norm_num
    rw [h2] at h1
    exact h1
  · intro v hv
    have himg : (Finset.range (2 ^ 256)).filter
        (fun rand => RandomGenerator.generate_random_int_step R rand = some v)
        = (Finset.range (2 ^ 256 / R)).image (fun k => R * k + v) := by
      ext rand
      simp only [Finset.mem_filter, Finset.mem_range, Finset.mem_image,
        RandomGenerator.generate_random_int_step]
      constructor
      · rintro ⟨_, hstep⟩
        by_cases hacc : rand < 2 ^ 256 / R * R
        · rw [if_pos hacc] at hstep
          injection hstep with h'
          refine ⟨rand / R, (Nat.div_lt_iff_lt_mul hR).mpr hacc, ?_⟩
          calc R * (rand / R) + v = R * (rand / R) + rand % R := by rw [h']
            _ = rand := Nat.div_add_mod rand R
        · rw [if_neg hacc] at hstep
          cases hstep
      · rintro ⟨k, hk, rfl⟩
        have hsucc : R * (k + 1) = R * k + R := Nat.mul_succ R k
        have hlt : R * k + v < R * (k + 1) := by omega
        have hle : R * (k + 1) ≤ R * (2 ^ 256 / R) :=
          Nat.mul_le_mul_left R hk
        have hacc : R * k + v < 2 ^ 256 / R * R := by
          calc R * k + v < R * (k + 1) := hlt
            _ ≤ R * (2 ^ 256 / R) := hle
            _ = 2 ^ 256 / R * R := Nat.mul_comm _ _
        have hbound : R * k + v < 2 ^ 256 :=
          Nat.lt_of_lt_of_le hacc (Nat.div_mul_le_self _ _)
        refine ⟨hbound, ?_⟩
        rw [if_pos hacc]
        have hmod : (R * k + v) % R = v := by
          rw [Nat.mul_add_mod, Nat.mod_eq_of_lt hv]
        rw [hmod]
    rw [himg]
    rw [Finset.card_image_of_injective _ (fun a b hab => by
      have : R * a = R * b := by omega
      exact Nat.eq_of_mul_eq_mul_left hR this)]
    exact Finset.card_range _

/-- Witness for C3 at `range_max = 6` (which does not divide `2^256`, so the
rejection path is live). -/
theorem generate_random_int_rejection_uniform_witness :
    0 < 6 ∧
    ((∀ draws r, RandomGenerator.generate_random_int 6 draws = some r → r < 6)
    ∧ (∀ bs : List Nat, bs.length = 32 → (∀ b ∈ bs, b < 256) →
        int_from_bytes bs < 2 ^ 256)
    ∧ (∀ v, v < 6 →
        ((Finset.range (2 ^ 256)).filter
          (fun rand => RandomGenerator.generate_random_int_step 6 rand
            = some v)).card = 2 ^ 256 / 6)) :=
  ⟨by decide, generate_random_int_rejection_uniform 6 (by decide)⟩

/-- The kinds of byte provider a Python implementation can draw from:
an operating-system cryptographic entropy source (`os.urandom` /
`secrets.token_bytes`) or the seedable, non-cryptographic Mersenne Twister
behind the module-level functions of the `random` module. -/
inductive ByteSource where
  | osEntropy
  | mersenneTwister
deriving DecidableEq, Repr

namespace RandomGenerator

/-- Embedding of the provider used by `RandomGenerator.generate_secure_random`
(game.py lines 19-21): its body is `random.randbytes(bits // 8)`, which draws
from the `random` module's Mersenne Twister, not from an OS entropy source,
and has no failure path. -/
def generate_secure_random_source : ByteSource := ByteSource.mersenneTwister

/-- Embedding of the byte count returned by `generate_secure_random`
(game.py line 21): `random.randbytes(bits // 8)` yields `bits // 8` bytes. -/
def generate_secure_random_len (bits : Nat) : Nat := bits / 8

end RandomGenerator

/-- C4 (code bug): the bytes behind `generate_secure_random` come from the
`random` module's Mersenne Twister — a non-cryptographic pseudo-random
generator — not from an operating-system-grade entropy provider, and the
call has no `EntropyUnavailable` failure path, contradicting the spec's
"never a non-cryptographic pseudo-random generator". -/
theorem generate_secure_random_not_os_entropy :
    RandomGenerator.generate_secure_random_source = ByteSource.mersenneTwister
    ∧ RandomGenerator.generate_secure_random_source ≠ ByteSource.osEntropy
    ∧ RandomGenerator.generate_secure_random_len 256 = 32 := by
  refine ⟨rfl, ?_, rfl⟩
  intro h
  cases h

/-- Byte values of a string's characters; CPython's `str.encode()` of a
decimal integer string is exactly its ASCII code points. -/
def strEncode (s : String) : List Nat := s.toList.map Char.toNat

/-- SHA3-256 block size in bytes (CPython `hashlib.sha3_256().block_size`),
the padding width `hmac.new(..., hashlib.sha3_256)` uses. -/
def sha3BlockSize : Nat := 136

/-- RFC 2104 HMAC as implemented by Python's `hmac` module over an abstract
hash `H` standing for the SHA3-256 library primitive: a key longer than the
block size is hashed, the key is zero-padded to the block size, and the
digest is `H((key ⊕ 0x5c…) ++ H((key ⊕ 0x36…) ++ msg))`. -/
def hmacBytes (H : List Nat → List Nat) (key msg : List Nat) : List Nat :=
  let key0 := if sha3BlockSize < key.length then H key else key
  let keyBlock := key0 ++ List.replicate (sha3BlockSize - key0.length) 0
  H ((keyBlock.map (fun b => b ^^^ 0x5c)) ++ H ((keyBlock.map (fun b => b ^^^ 0x36)) ++ msg))

/-- The sixteen lowercase hexadecimal digits, expressed through the core
digit table (`Nat.digitChar` maps 0..15 to the lowercase hex digits). -/
def hexDigits : List Char := (List.range 16).map Nat.digitChar

/-- One byte printed as two lowercase hexadecimal digits, as `bytes.hex()` /
`.hexdigest()` do (a byte is below 256, so both nibbles are below 16). -/
def byteToHex (b : Nat) : List Char :=
  [Nat.digitChar (b / 16), Nat.digitChar (b % 16)]

/-- Lowercase hexadecimal rendering of a byte sequence (`.hexdigest()`). -/
def hexEncode (bs : List Nat) : String := String.mk (bs.flatMap byteToHex)

namespace RandomGenerator

/-- Embedding of `RandomGenerator.calculate_hmac` (game.py lines 30-32):
`hmac.new(key, str(message).encode(), hashlib.sha3_256).hexdigest()`, with
the SHA3-256 compression abstracted as the parameter `H`. -/
def calculate_hmac (H : List Nat → List Nat) (key : List Nat)
    (message : Int) : String :=
  hexEncode (hmacBytes H key (strEncode (toString message)))

/-- Modelled from the spec: `verify(secretKey, value, digest)` is absent from
`src/game.py` even though §4.2 requires the commitment component to expose
it; following the spec's words, it recomputes `commit(secretKey, value)` and
returns whether it equals the digest. -/
def verify (H : List Nat → List Nat) (key : List Nat) (value : Int)
    (digest : String) : Bool :=
  calculate_hmac H key value == digest

end RandomGenerator

/-- Hex rendering doubles the byte count. -/
theorem flatMap_byteToHex_length (bs : List Nat) :
    (bs.flatMap byteToHex).length = 2 * bs.length := by
  induction bs with
  | nil => rfl
  | cons b bs ih =>
    rw [List.flatMap_cons, List.length_append, ih]
    simp [byteToHex]
    omega

/-- Every character `byteToHex` emits for a byte value is a lowercase
hexadecimal digit. -/
theorem byteToHex_mem_hexDigits (b : Nat) (hb : b < 256) (c : Char)
    (h : c ∈ byteToHex b) : c ∈ hexDigits := by
  have hmem : ∀ i : Nat, i < 16 → Nat.digitChar i ∈ hexDigits := by
    intro i hi
    exact List.mem_map.mpr ⟨i, List.mem_range.mpr hi, rfl⟩
  simp only [byteToHex, List.mem_cons, List.not_mem_nil, or_false] at h
  rcases h with h | h
  · rw [h]
    exact hmem _ (by omega)
  · rw [h]
    exact hmem _ (Nat.mod_lt _ (by omega))

/-- `hmacBytes` ends with an application of the hash, so its output bytes
are hash-output bytes. -/
theorem hmacBytes_is_hash_output (H : List Nat → List Nat)
    (key msg : List Nat) : ∃ x, hmacBytes H key msg = H x :=
  ⟨_, rfl⟩

/-- C5: `calculate_hmac` is the (side-effect-free, hence deterministic) HMAC
construction over the hash of the decimal string of the value keyed by the
key, rendered as a lowercase hexadecimal string; whenever the hash outputs
32 bytes — as SHA3-256 does — the digest has exactly 64 characters, each one
of the sixteen lowercase hexadecimal digits. -/
theorem calculate_hmac_format (H : List Nat → List Nat) (key : List Nat)
    (message : Int) (hH : ∀ x, (H x).length = 32)
    (hHbytes : ∀ x, ∀ b ∈ H x, b < 256) :
    RandomGenerator.calculate_hmac H key message
      = hexEncode (hmacBytes H key (strEncode (toString message)))
    ∧ (RandomGenerator.calculate_hmac H key message).length = 64
    ∧ (∀ c ∈ (RandomGenerator.calculate_hmac H key message).toList,
        c ∈ hexDigits)
    ∧ hexDigits = "0123456789abcdef".toList := by
  refine ⟨rfl, ?_, ?_, by decide⟩
  · show (String.mk ((hmacBytes H key (strEncode (toString message))).flatMap
      byteToHex)).length = 64
    have h1 : (String.mk ((hmacBytes H key
        (strEncode (toString message))).flatMap byteToHex)).length
        = ((hmacBytes H key (strEncode (toString message))).flatMap
          byteToHex).length := rfl
    rw [h1, flatMap_byteToHex_length]
    unfold hmacBytes
    rw [hH]
  · intro c hc
    have hc' : c ∈ (hmacBytes H key (strEncode (toString message))).flatMap
        byteToHex := hc
    obtain ⟨b, hbmem, hb⟩ := List.mem_flatMap.mp hc'
    obtain ⟨x, hx⟩ := hmacBytes_is_hash_output H key
      (strEncode (toString message))
    rw [hx] at hbmem
    exact byteToHex_mem_hexDigits b (hHbytes x b hbmem) c hb

/-- Witness for C5 with a concrete 32-byte-output hash. -/
theorem calculate_hmac_format_witness :
    ((∀ x : List Nat, ((fun _ => List.replicate 32 0) x).length = 32)
      ∧ (∀ x : List Nat, ∀ b ∈ (fun _ => List.replicate 32 0) x, b < 256)) ∧
    (RandomGenerator.calculate_hmac (fun _ => List.replicate 32 0) [7, 9] 4
      = hexEncode (hmacBytes (fun _ => List.replicate 32 0) [7, 9]
          (strEncode (toString (4 : Int))))
    ∧ (RandomGenerator.calculate_hmac (fun _ => List.replicate 32 0)
        [7, 9] 4).length = 64
    ∧ (∀ c ∈ (RandomGenerator.calculate_hmac (fun _ => List.replicate 32 0)
        [7, 9] 4).toList, c ∈ hexDigits)
    ∧ hexDigits = "0123456789abcdef".toList) :=
  ⟨⟨fun _ => by simp,
    fun _ b hb => by rw [List.eq_of_mem_replicate hb]; omega⟩,
   calculate_hmac_format (fun _ => List.replicate 32 0) [7, 9] 4
     (fun _ => by simp)
     (fun _ b hb => by rw [List.eq_of_mem_replicate hb]; omega)⟩

/-- C6: the spec-modelled `verify` recomputes `calculate_hmac` and compares,
so for every hash, key and value the round trip
`verify key value (calculate_hmac key value)` returns `true`. -/
theorem verify_roundtrip (H : List Nat → List Nat) (key : List Nat)
    (value : Int) :
    RandomGenerator.verify H key value
      (RandomGenerator.calculate_hmac H key value) = true := by
  simp [RandomGenerator.verify]

/-- Embedding of the contribution handling of `DiceGame.start_game`
(game.py lines 90-96): one input is read; anything other than "0" or "1"
prints "Invalid input." and exits the process (`sys.exit(1)`, modelled as
`none`) — this phase never re-prompts, so any further queued inputs are
ignored. -/
def start_game_user_number : List String → Option Int
  | [] => none
  | s :: _ => if s = "0" then some 0 else if s = "1" then some 1 else none

/-- Embedding of the input loop of `DiceGame.get_throw` (game.py lines
166-177). Each raw input is stripped and lowercased (CPython binds
`user_input` once; the expression is pure, so it is repeated here): "x"
exits, "?" shows help and re-prompts, "0".."5" is accepted as
`int(user_input)`, and anything else re-prompts. -/
def get_throw_select : List String → Option Int
  | [] => none
  | s :: rest =>
    if s.trim.toLower = "x" then none
    else if s.trim.toLower = "?" then get_throw_select rest
    else if s.trim.toLower = "0" then some 0
    else if s.trim.toLower = "1" then some 1
    else if s.trim.toLower = "2" then some 2
    else if s.trim.toLower = "3" then some 3
    else if s.trim.toLower = "4" then some 4
    else if s.trim.toLower = "5" then some 5
    else get_throw_select rest

/-- Embedding of the result computation of `DiceGame.get_throw` (game.py
lines 178-182): the round's `FairPlay` object is created once, before the
input loop, so the same commitment serves whichever input is finally
accepted, and `result = (user_number + computer_number) % 6`. -/
def get_throw_result (fp : FairPlay) (inputs : List String) : Option Int :=
  (get_throw_select inputs).map (fun u => (u + fp.computer_number) % 6)

/-- C7 fails on the code: an out-of-range contribution is not rejected with
any failure — `verify_and_get_result` combines `contribution = 7` in a
`rangeMax = 6` round into an ordinary result — and in `start_game` an
invalid contribution terminates the process instead of re-prompting (the
queued second, valid input "0" is never read). -/
theorem out_of_range_not_rejected :
    FairPlay.verify_and_get_result ⟨6, [9], 4, "d"⟩ 7 = some (5, [9])
    ∧ start_game_user_number ["2", "0"] = none := by
  exact ⟨by decide, rfl⟩

/-- Any value the `get_throw` input loop accepts lies in `[0, 6)`. -/
theorem get_throw_select_range :
    ∀ (l : List String) (n : Int), get_throw_select l = some n → 0 ≤ n ∧ n < 6 := by
  intro l
  induction l with
  | nil =>
    intro n h'
    simp [get_throw_select] at h'
  | cons s rest ih =>
    intro n h'
    rw [get_throw_select] at h'
    split_ifs at h'
    · exact ih n h'
    · simp only [Option.some.injEq] at h'; omega
    · simp only [Option.some.injEq] at h'; omega
    · simp only [Option.some.injEq] at h'; omega
    · simp only [Option.some.injEq] at h'; omega
    · simp only [Option.some.injEq] at h'; omega
    · simp only [Option.some.injEq] at h'; omega
    · exact ih n h'

/-- C7 amended: `verify_and_get_result` performs no range check and returns
an ordinary combined result for any integer contribution; range enforcement
lives at the text interface, where the throw phase (`get_throw`) re-prompts
on invalid input while keeping the one `FairPlay` object built before the
loop — any accepted user number is in `[0, 6)` and is combined with that
round's original committed value, so the published digest, secret key and
committed value are preserved across re-prompts — whereas `start_game`
terminates the process on invalid input instead of re-prompting. -/
theorem contribution_handling (fp : FairPlay) (h : fp.range_max ≠ 0)
    (u : Int) (inputs : List String) :
    (∃ r, fp.verify_and_get_result u = some (r, fp.secret_key))
    ∧ (∀ n, get_throw_select inputs = some n →
        0 ≤ n ∧ n < 6
        ∧ get_throw_result fp inputs = some ((n + fp.computer_number) % 6)) := by
  constructor
  · refine ⟨(fp.computer_number + u) % fp.range_max, ?_⟩
    simp [FairPlay.verify_and_get_result, h]
  · intro n hn
    obtain ⟨h0, h6⟩ := get_throw_select_range inputs n hn
    refine ⟨h0, h6, ?_⟩
    rw [get_throw_result, hn]
    rfl

/-- Witness for the amended C7: a round with `range_max = 6`, an invalid
input "7" and a help request "?" before the accepted " 2 " (whitespace
stripped), all served by the same commitment. -/
theorem contribution_handling_witness :
    ((6 : Int) ≠ 0) ∧
    ((∃ r, FairPlay.verify_and_get_result ⟨6, [1], 4, "d"⟩ 3 = some (r, [1]))
    ∧ (∀ n, get_throw_select ["7", "?", " 2 "] = some n →
        0 ≤ n ∧ n < 6
        ∧ get_throw_result ⟨6, [1], 4, "d"⟩ ["7", "?", " 2 "]
            = some ((n + 4) % 6))) :=
  ⟨by decide, contribution_handling ⟨6, [1], 4, "d"⟩ (by decide) 3 ["7", "?", " 2 "]⟩

namespace ProbabilityCalculator

/-- Embedding of `ProbabilityCalculator.calculate_win_probabilities`
(game.py lines 46-60): an n×n table whose (i, j) entry, for i ≠ j, sums over
die i's faces how many of die j's faces each strictly exceeds, and divides
by 36; entries with i = j keep the initial 0 of the zero matrix. Python's
`win_count / 36` float division is modelled as exact rational division (the
numerator and denominator are exact small integers). -/
def calculate_win_probabilities (dice_list : List Dice) : List (List ℚ) :=
  (List.range dice_list.length).map fun i =>
    (List.range dice_list.length).map fun j =>
      if i ≠ j then
        ((((dice_list.getD i default).faces.map fun fi =>
            (dice_list.getD j default).faces.countP fun fj =>
              decide (fj < fi)).sum : Nat) : ℚ) / 36
      else 0

end ProbabilityCalculator

/-- The ordered face pairs of two face lists, first die's face first. -/
def facePairs (a b : List Int) : List (Int × Int) :=
  a.flatMap fun x => b.map fun y => (x, y)

/-- Number of ordered face pairs in which the first face strictly exceeds
the second. -/
def winPairCount (a b : List Int) : Nat :=
  (facePairs a b).countP fun p => decide (p.2 < p.1)

/-- There are `a.length * b.length` ordered face pairs. -/
theorem facePairs_length (a b : List Int) :
    (facePairs a b).length = a.length * b.length := by
  induction a with
  | nil => simp [facePairs]
  | cons x a ih =>
    rw [facePairs, List.flatMap_cons, List.length_append, List.length_map]
    rw [facePairs] at ih
    rw [ih, List.length_cons]
    ring

/-- The nested-loop win count of the source equals the count over the list
of ordered face pairs. -/
theorem winPairCount_eq_sum (a b : List Int) :
    winPairCount a b
      = (a.map fun fi => b.countP fun fj => decide (fj < fi)).sum := by
  rw [winPairCount, facePairs]
  induction a with
  | nil => rfl
  | cons x a ih =>
    rw [List.flatMap_cons, List.countP_append, List.map_cons, List.sum_cons, ih]
    congr 1
    rw [List.countP_map]
    rfl

/-- Indexing a map over `List.range`. -/
theorem getD_map_range {α : Type} (n : Nat) (f : Nat → α) (i : Nat)
    (h : i < n) (dflt : α) : ((List.range n).map f).getD i dflt = f i := by
  rw [List.getD_eq_getElem _ _ (by simpa using h)]
  simp

/-- C9: for a list of n dice (each with its 6 faces), the returned matrix is
n×n; the (i, j) entry for i ≠ j equals the number of the 36 ordered face
pairs in which a face of die i strictly exceeds a face of die j, divided by
36; and every diagonal entry is the sentinel 0. Purity/determinism is by
construction: the embedding is a function of the dice list alone. -/
theorem calculate_win_probabilities_entries (dl : List Dice) (i j : Nat)
    (hi : i < dl.length) (hj : j < dl.length)
    (h6 : ∀ d ∈ dl, d.faces.length = 6) :
    (ProbabilityCalculator.calculate_win_probabilities dl).length = dl.length
    ∧ (∀ row ∈ ProbabilityCalculator.calculate_win_probabilities dl,
        row.length = dl.length)
    ∧ (facePairs (dl.getD i default).faces (dl.getD j default).faces).length
        = 36
    ∧ ((ProbabilityCalculator.calculate_win_probabilities dl).getD i []).getD
        j 0
        = if i = j then 0
          else (winPairCount (dl.getD i default).faces
              (dl.getD j default).faces : ℚ) / 36 := by
  have hdi : (dl.getD i default).faces.length = 6 := by
    apply h6
    rw [List.getD_eq_getElem _ _ hi]
    exact List.getElem_mem hi
  have hdj : (dl.getD j default).faces.length = 6 := by
    apply h6
    rw [List.getD_eq_getElem _ _ hj]
    exact List.getElem_mem hj
  refine ⟨?_, ?_, ?_, ?_⟩
  · simp [ProbabilityCalculator.calculate_win_probabilities]
  · intro row hrow
    obtain ⟨i', _, rfl⟩ := List.mem_map.mp hrow
    simp
  · rw [facePairs_length, hdi, hdj]
  · rw [ProbabilityCalculator.calculate_win_probabilities]
    rw [getD_map_range dl.length _ i hi]
    rw [getD_map_range dl.length _ j hj]
    by_cases hij : i = j
    · rw [if_neg (by simpa using hij), if_pos hij]
    · rw [if_pos hij, if_neg hij]
      rw [winPairCount_eq_sum]

/-- Witness for C9 at the spec's dice A = [2,2,4,4,9,9] and
B = [1,1,6,6,8,8], entry (0, 1). -/
theorem calculate_win_probabilities_entries_witness :
    (0 < ([Dice.mk [2, 2, 4, 4, 9, 9], Dice.mk [1, 1, 6, 6, 8, 8]] :
        List Dice).length
      ∧ 1 < ([Dice.mk [2, 2, 4, 4, 9, 9], Dice.mk [1, 1, 6, 6, 8, 8]] :
        List Dice).length
      ∧ ∀ d ∈ ([Dice.mk [2, 2, 4, 4, 9, 9], Dice.mk [1, 1, 6, 6, 8, 8]] :
        List Dice), d.faces.length = 6) ∧
    ((ProbabilityCalculator.calculate_win_probabilities
        [Dice.mk [2, 2, 4, 4, 9, 9], Dice.mk [1, 1, 6, 6, 8, 8]]).length = 2
    ∧ (∀ row ∈ ProbabilityCalculator.calculate_win_probabilities
        [Dice.mk [2, 2, 4, 4, 9, 9], Dice.mk [1, 1, 6, 6, 8, 8]],
        row.length = 2)
    ∧ (facePairs (([Dice.mk [2, 2, 4, 4, 9, 9], Dice.mk [1, 1, 6, 6, 8, 8]] :
          List Dice).getD 0 default).faces
        (([Dice.mk [2, 2, 4, 4, 9, 9], Dice.mk [1, 1, 6, 6, 8, 8]] :
          List Dice).getD 1 default).faces).length = 36
    ∧ ((ProbabilityCalculator.calculate_win_probabilities
          [Dice.mk [2, 2, 4, 4, 9, 9], Dice.mk [1, 1, 6, 6, 8, 8]]).getD 0
            []).getD 1 0
        = if 0 = 1 then 0
          else (winPairCount (([Dice.mk [2, 2, 4, 4, 9, 9],
              Dice.mk [1, 1, 6, 6, 8, 8]] : List Dice).getD 0 default).faces
            (([Dice.mk [2, 2, 4, 4, 9, 9], Dice.mk [1, 1, 6, 6, 8, 8]] :
              List Dice).getD 1 default).faces : ℚ) / 36) :=
  ⟨⟨by decide, by decide, by decide⟩,
   calculate_win_probabilities_entries
     [Dice.mk [2, 2, 4, 4, 9, 9], Dice.mk [1, 1, 6, 6, 8, 8]] 0 1
     (by decide) (by decide) (by decide)⟩
